import Mathlib

/-!
# Verification of the crab-db LRU-K replacer

A shallow embedding of `src/buffer_pool/eviction/lru_k/lru_k_node.rs` and
`src/buffer_pool/eviction/lru_k/lru_k_replacer.rs`, together with proofs of the
stated properties of the replacer contract.

Modelling conventions:
* The Rust `HashMap<FrameId, LRUKNode>` is modelled as an association list with
  distinct keys; a fresh binding is appended at the back, `get`/`get_mut` find
  the (unique) binding, `remove` erases it.  Iteration order of the Rust map is
  unspecified, so the list order stands in for one arbitrary iteration order.
* `u64` timestamps are modelled as `Nat`; the literal `u64::MAX` of the source
  becomes the constant `u64MAX = 2 ^ 64 - 1`, and `u64` subtraction (which never
  underflows on the paths reached from well-formed states) is `Nat` subtraction.
* The two abort branches of `evict` (`panic!` on a zero-length history and the
  `expect` on a missing front timestamp) are modelled by returning `none` from
  `evict`; every non-aborting outcome is `some`.
-/

/-- Modelled from the spec: `buffer_pool::common::FrameId` is declared in a file
that is not under `src/`; the spec (§3) says a frame identifier is an opaque,
comparable, hashable integer supplied by the caller.  The development below uses
`Nat` (definitionally equal to this abbreviation) directly in signatures. -/
abbrev FrameId := Nat

/-- Modelled from the spec: `lru_k::common::Timestamp` is declared in a file that
is not under `src/`; the spec (§3) says a timestamp is a monotonically increasing
unsigned integer logical clock value, and the replacer source compares it against
`u64::MAX`, so it is an unsigned 64-bit integer idealised as `Nat`.  The
development below uses `Nat` (definitionally equal) directly in signatures. -/
abbrev Timestamp := Nat

/-- The literal `u64::MAX` used by `LRUKReplacer::evict` as the infinite-distance
sentinel. -/
def u64MAX : Nat := 2 ^ 64 - 1

/-- `LRUKNode` from `lru_k_node.rs`: the per-frame access-history tracker.
`history` is the `VecDeque<Timestamp>` with its front at the head of the list. -/
structure LRUKNode where
  max_accesses : Nat
  history : List Nat
  frame_id : Nat
  is_evictable : Bool
  deriving DecidableEq, Repr

/-- `LRUKNode::new`. -/
def LRUKNode.new (max_accesses : Nat) (frame_id : Nat) : LRUKNode :=
  { max_accesses := max_accesses
    history := []
    frame_id := frame_id
    is_evictable := false }

/-- `LRUKNode::history_length`. -/
def LRUKNode.history_length (n : LRUKNode) : Nat :=
  n.history.length

/-- `LRUKNode::front_of_history`. -/
def LRUKNode.front_of_history (n : LRUKNode) : Option Nat :=
  n.history.head?

/-- `LRUKNode::record_history`: push the timestamp at the back and, if the length
now exceeds `max_accesses`, pop the front. -/
def LRUKNode.record_history (n : LRUKNode) (timestamp : Nat) : LRUKNode :=
  if (n.history ++ [timestamp]).length > n.max_accesses then
    { n with history := (n.history ++ [timestamp]).tail }
  else
    { n with history := n.history ++ [timestamp] }

/-- `LRUKNode::set_evictable`. -/
def LRUKNode.set_evictable (n : LRUKNode) (is_evictable : Bool) : LRUKNode :=
  { n with is_evictable := is_evictable }

/-- `CrabDBError` from `types.rs`. -/
structure CrabDBError where
  message : String
  deriving DecidableEq, Repr

/-- `CrabDBError::new`. -/
def CrabDBError.new (message : String) : CrabDBError :=
  { message := message }

/-- `CrabDbResult<T>` from `types.rs`. -/
abbrev CrabDbResult (α : Type) := Except CrabDBError α

instance {ε α : Type} [DecidableEq ε] [DecidableEq α] : DecidableEq (Except ε α) :=
  fun a b =>
    match a, b with
    | Except.ok x, Except.ok y =>
        if h : x = y then isTrue (by rw [h]) else isFalse (by intro hc; cases hc; exact h rfl)
    | Except.ok _, Except.error _ => isFalse (by intro hc; cases hc)
    | Except.error _, Except.ok _ => isFalse (by intro hc; cases hc)
    | Except.error x, Except.error y =>
        if h : x = y then isTrue (by rw [h]) else isFalse (by intro hc; cases hc; exact h rfl)

/-- `RecordAccessResponse` from `replacer.rs`. -/
structure RecordAccessResponse where
  deriving DecidableEq, Repr

/-- `RemoveResponse` from `replacer.rs`. -/
structure RemoveResponse where
  deriving DecidableEq, Repr

/-- `SetEvictableResponse` from `replacer.rs`. -/
structure SetEvictableResponse where
  deriving DecidableEq, Repr

/-- `EvictionResponse` from `replacer.rs`. -/
structure EvictionResponse where
  frame_id : Option Nat
  deriving DecidableEq, Repr

/-- `EvictionResponse::new`. -/
def EvictionResponse.new (frame_id : Option Nat) : EvictionResponse :=
  { frame_id := frame_id }

/-- `ReplacerSizeResponse` from `replacer.rs`. -/
structure ReplacerSizeResponse where
  num_evictable_frames : Nat
  deriving DecidableEq, Repr

/-- `LRUKReplacerState` from `lru_k_replacer.rs`; the `HashMap` is an association
list with distinct keys. -/
structure LRUKReplacerState where
  current_size : Nat
  current_timestamp : Nat
  node_store : List (Nat × LRUKNode)
  deriving DecidableEq, Repr

/-- `LRUKReplacer` (parameters plus the lock-protected state; the lock itself has
no sequential content). -/
structure LRUKReplacer where
  max_accesses : Nat
  replacer_size : Nat
  state : LRUKReplacerState
  deriving DecidableEq, Repr

/-- `LRUKReplacer::new`. -/
def LRUKReplacer.new (replacer_size : Nat) (max_accesses : Nat) : LRUKReplacer :=
  { replacer_size := replacer_size
    max_accesses := max_accesses
    state := { current_size := 0, current_timestamp := 1, node_store := [] } }

/-- `HashMap::get` on the association list: the value bound to `f`, if any. -/
def storeLookup (store : List (Nat × LRUKNode)) (f : Nat) : Option LRUKNode :=
  match store with
  | [] => none
  | (g, n) :: rest => if g = f then some n else storeLookup rest f

/-- In-place mutation through `HashMap::get_mut`: replace the binding of `f`. -/
def storeUpdate (store : List (Nat × LRUKNode)) (f : Nat) (nd : LRUKNode) :
    List (Nat × LRUKNode) :=
  match store with
  | [] => []
  | (g, n) :: rest => if g = f then (g, nd) :: rest else (g, n) :: storeUpdate rest f nd

/-- `HashMap::remove`: erase the binding of `f`. -/
def storeErase (store : List (Nat × LRUKNode)) (f : Nat) :
    List (Nat × LRUKNode) :=
  match store with
  | [] => []
  | (g, n) :: rest => if g = f then rest else (g, n) :: storeErase rest f

/-- The number of tracked frames whose evictable flag is true. -/
def countEvictable (store : List (Nat × LRUKNode)) : Nat :=
  store.countP (fun q => q.2.is_evictable)

/-- `LRUKReplacer::record_access` (an operation returns its result together with
the post state). -/
def LRUKReplacer.record_access (r : LRUKReplacer) (frame_id : Nat) :
    CrabDbResult RecordAccessResponse × LRUKReplacer :=
  let current_timestamp := r.state.current_timestamp
  match storeLookup r.state.node_store frame_id with
  | some node =>
      (Except.ok {},
        { r with state :=
          { r.state with
            node_store := storeUpdate r.state.node_store frame_id
              (node.record_history current_timestamp)
            current_timestamp := current_timestamp + 1 } })
  | none =>
      if r.state.node_store.length > r.replacer_size then
        (Except.error (CrabDBError.new "Frame cannot exceed replacer size"), r)
      else
        (Except.ok {},
          { r with state :=
            { r.state with
              node_store := r.state.node_store ++
                [(frame_id, (LRUKNode.new r.max_accesses frame_id).record_history
                    current_timestamp)]
              current_timestamp := current_timestamp + 1 } })

/-- `LRUKReplacer::remove`. -/
def LRUKReplacer.remove (r : LRUKReplacer) (frame_id : Nat) :
    CrabDbResult RemoveResponse × LRUKReplacer :=
  match storeLookup r.state.node_store frame_id with
  | some node =>
      if node.is_evictable then
        (Except.ok {},
          { r with state :=
            { r.state with
              node_store := storeErase r.state.node_store frame_id
              current_size := r.state.current_size - 1 } })
      else
        (Except.error (CrabDBError.new "Frame is marked as not evictable"), r)
  | none =>
      (Except.error (CrabDBError.new "Frame doesn\x27t exist; invalid remove command"), r)

/-- `LRUKReplacer::set_evictable`. -/
def LRUKReplacer.set_evictable (r : LRUKReplacer) (frame_id : Nat)
    (set_evictable : Bool) : CrabDbResult SetEvictableResponse × LRUKReplacer :=
  match storeLookup r.state.node_store frame_id with
  | none =>
      (Except.error (CrabDBError.new "Frame doesn\x27t exist to set_evictable"), r)
  | some node =>
      match node.is_evictable, set_evictable with
      | true, true => (Except.ok {}, r)
      | true, false =>
          (Except.ok {},
            { r with state :=
              { r.state with
                node_store := storeUpdate r.state.node_store frame_id
                  (node.set_evictable false)
                current_size := r.state.current_size - 1 } })
      | false, true =>
          (Except.ok {},
            { r with state :=
              { r.state with
                node_store := storeUpdate r.state.node_store frame_id
                  (node.set_evictable true)
                current_size := r.state.current_size + 1 } })
      | false, false => (Except.ok {}, r)

/-- `LRUKReplacer::size`. -/
def LRUKReplacer.size (r : LRUKReplacer) : CrabDbResult ReplacerSizeResponse :=
  Except.ok { num_evictable_frames := r.state.current_size }

/-- One step of the victim scan in `LRUKReplacer::evict`: the accumulator holds
the best candidate and the running maximum distance, or `none` once an abort
branch (the `panic!` on a zero-length history, or the `expect` on a missing
front timestamp) has been hit. -/
def evictScanStep (current_timestamp : Nat) (max_accesses : Nat)
    (acc : Option (Option Nat × Nat)) (entry : Nat × LRUKNode) :
    Option (Option Nat × Nat) :=
  match acc with
  | none => none
  | some (evicted_frame, max_k_distance) =>
      if entry.2.is_evictable then
        if entry.2.history_length = 0 then
          none
        else
          match entry.2.front_of_history with
          | none => none
          | some node_earliest_timestamp =>
              let start_distance :=
                if entry.2.history_length ≥ max_accesses then current_timestamp
                else u64MAX
              let backwards_k_distance := start_distance - node_earliest_timestamp
              if backwards_k_distance > max_k_distance then
                some (some entry.1, backwards_k_distance)
              else
                some (evicted_frame, max_k_distance)
      else
        some (evicted_frame, max_k_distance)

/-- The backward k-distance `evict` computes for a node (meaningful when the
history is non-empty, which holds in every reachable state). -/
def backwardKDistance (current_timestamp : Nat) (max_accesses : Nat)
    (node : LRUKNode) : Nat :=
  (if node.history_length ≥ max_accesses then current_timestamp else u64MAX)
    - (node.front_of_history).getD 0

/-- `LRUKReplacer::evict`; `none` models the abort branches (`panic!`/`expect`). -/
def LRUKReplacer.evict (r : LRUKReplacer) :
    Option (CrabDbResult EvictionResponse × LRUKReplacer) :=
  match r.state.node_store.foldl
      (evictScanStep r.state.current_timestamp r.max_accesses) (some (none, 0)) with
  | none => none
  | some (none, _) => some (Except.ok (EvictionResponse.new none), r)
  | some (some frame, _) =>
      match r.remove frame with
      | (Except.ok _, r2) => some (Except.ok (EvictionResponse.new (some frame)), r2)
      | (Except.error e, r2) =>
          some (Except.error (CrabDBError.new
            ("Failed to remove evicted frame from replacer " ++ e.message)), r2)

/-- One mutating call of the replacer contract (an aborting `evict` has no
successor state). -/
inductive ReplacerStep : LRUKReplacer → LRUKReplacer → Prop where
  | record_access (r : LRUKReplacer) (f : Nat) : ReplacerStep r (r.record_access f).2
  | set_evictable (r : LRUKReplacer) (f : Nat) (b : Bool) :
      ReplacerStep r (r.set_evictable f b).2
  | remove (r : LRUKReplacer) (f : Nat) : ReplacerStep r (r.remove f).2
  | evict (r : LRUKReplacer) (p : CrabDbResult EvictionResponse × LRUKReplacer)
      (h : r.evict = some p) : ReplacerStep r p.2

/-- States reachable from `LRUKReplacer::new replacer_size max_accesses` by any
sequence of contract operations. -/
inductive Reachable (replacer_size : Nat) (max_accesses : Nat) : LRUKReplacer → Prop where
  | init : Reachable replacer_size max_accesses (LRUKReplacer.new replacer_size max_accesses)
  | step {r r2 : LRUKReplacer} : Reachable replacer_size max_accesses r →
      ReplacerStep r r2 → Reachable replacer_size max_accesses r2

/-- The timestamps recorded into histories by a sequence of `record_access`
calls: each successful call records the pre-call clock value (failed calls
record nothing). -/
def issuedTimestamps (r : LRUKReplacer) : List Nat → List Nat
  | [] => []
  | f :: fs =>
      if (r.record_access f).1.isOk = true then
        r.state.current_timestamp :: issuedTimestamps (r.record_access f).2 fs
      else
        issuedTimestamps (r.record_access f).2 fs

/-- Well-formedness of a replacer: the construction parameters are intact, the
map keys are distinct, every tracked node has a non-empty history of timestamps
below the clock, the evictable count matches the store, and at most
`replacer_size + 1` frames are tracked. -/
structure WF (replacer_size : Nat) (max_accesses : Nat) (r : LRUKReplacer) : Prop where
  param_size : r.replacer_size = replacer_size
  param_k : r.max_accesses = max_accesses
  keys_nodup : (r.state.node_store.map Prod.fst).Nodup
  hist_ne : ∀ q ∈ r.state.node_store, q.2.history ≠ []
  hist_lt : ∀ q ∈ r.state.node_store, ∀ t ∈ q.2.history, t < r.state.current_timestamp
  count_eq : r.state.current_size = countEvictable r.state.node_store
  len_le : r.state.node_store.length ≤ replacer_size + 1



theorem storeLookup_eq_none_iff (l : List (Nat × LRUKNode)) (f : Nat) :
    storeLookup l f = none ↔ ∀ q ∈ l, q.1 ≠ f := by
  induction l with
  | nil => simp [storeLookup]
  | cons q rest ih =>
      obtain ⟨g, n⟩ := q
      by_cases hg : g = f
      · subst hg
        simp [storeLookup]
      · simp [storeLookup, hg, ih]

theorem storeLookup_mem {l : List (Nat × LRUKNode)} {f : Nat} {nd : LRUKNode}
    (h : storeLookup l f = some nd) : (f, nd) ∈ l := by
  induction l with
  | nil => simp [storeLookup] at h
  | cons q rest ih =>
      obtain ⟨g, n⟩ := q
      by_cases hg : g = f
      · subst hg
        simp [storeLookup] at h
        simp [h]
      · simp [storeLookup, hg] at h
        exact List.mem_cons_of_mem _ (ih h)

theorem mem_storeLookup {l : List (Nat × LRUKNode)} {f : Nat} {nd : LRUKNode}
    (hnd : (l.map Prod.fst).Nodup) (h : (f, nd) ∈ l) : storeLookup l f = some nd := by
  induction l with
  | nil => simp at h
  | cons q rest ih =>
      obtain ⟨g, n⟩ := q
      simp only [List.map_cons, List.nodup_cons] at hnd
      rcases List.mem_cons.mp h with h1 | h1
      · cases h1
        simp [storeLookup]
      · have hgf : g ≠ f := by
          intro hgf
          subst hgf
          exact hnd.1 (List.mem_map.mpr ⟨(g, nd), h1, rfl⟩)
        simp [storeLookup, hgf]
        exact ih hnd.2 h1

theorem storeUpdate_map_fst (l : List (Nat × LRUKNode)) (f : Nat) (nd : LRUKNode) :
    (storeUpdate l f nd).map Prod.fst = l.map Prod.fst := by
  induction l with
  | nil => rfl
  | cons q rest ih =>
      obtain ⟨g, n⟩ := q
      by_cases hg : g = f
      · simp [storeUpdate, hg]
      · simp [storeUpdate, hg, ih]

theorem storeUpdate_length (l : List (Nat × LRUKNode)) (f : Nat) (nd : LRUKNode) :
    (storeUpdate l f nd).length = l.length := by
  have := storeUpdate_map_fst l f nd
  calc (storeUpdate l f nd).length = ((storeUpdate l f nd).map Prod.fst).length := by
        simp
    _ = (l.map Prod.fst).length := by rw [this]
    _ = l.length := by simp

theorem mem_storeUpdate {l : List (Nat × LRUKNode)} {f : Nat} {nd : LRUKNode}
    {q : Nat × LRUKNode} (h : q ∈ storeUpdate l f nd) :
    q ∈ l ∨ q = (f, nd) := by
  induction l with
  | nil => simp [storeUpdate] at h
  | cons p rest ih =>
      obtain ⟨g, n⟩ := p
      by_cases hg : g = f
      · subst hg
        simp only [storeUpdate, if_pos rfl] at h
        rcases List.mem_cons.mp h with h1 | h1
        · exact Or.inr h1
        · exact Or.inl (List.mem_cons_of_mem _ h1)
      · simp only [storeUpdate, if_neg hg] at h
        rcases List.mem_cons.mp h with h1 | h1
        · exact Or.inl (List.mem_cons.mpr (Or.inl h1))
        · rcases ih h1 with h2 | h2
          · exact Or.inl (List.mem_cons_of_mem _ h2)
          · exact Or.inr h2

theorem countEvictable_storeUpdate {l : List (Nat × LRUKNode)} {f : Nat}
    {old : LRUKNode} (nd : LRUKNode) (h : storeLookup l f = some old) :
    countEvictable (storeUpdate l f nd) + (if old.is_evictable then 1 else 0) =
      countEvictable l + (if nd.is_evictable then 1 else 0) := by
  induction l with
  | nil => simp [storeLookup] at h
  | cons q rest ih =>
      obtain ⟨g, n⟩ := q
      by_cases hg : g = f
      · subst hg
        have hno : n = old := by simpa [storeLookup] using h
        rw [← hno]
        simp only [storeUpdate, if_true, eq_self_iff_true, countEvictable, List.countP_cons]
        by_cases h1 : n.is_evictable <;> by_cases h2 : nd.is_evictable <;>
          simp [h1, h2]
      · simp only [storeLookup, if_neg hg] at h
        have hrest := ih h
        simp only [storeUpdate, if_neg hg, countEvictable, List.countP_cons] at hrest ⊢
        by_cases h1 : n.is_evictable <;> simp [h1]
        all_goals omega

theorem countEvictable_append (l : List (Nat × LRUKNode)) (q : Nat × LRUKNode) :
    countEvictable (l ++ [q]) = countEvictable l + (if q.2.is_evictable then 1 else 0) := by
  simp [countEvictable, List.countP_append, List.countP_cons]

theorem storeErase_sublist (l : List (Nat × LRUKNode)) (f : Nat) :
    (storeErase l f).Sublist l := by
  induction l with
  | nil => simp [storeErase]
  | cons q rest ih =>
      obtain ⟨g, n⟩ := q
      by_cases hg : g = f
      · simp only [storeErase, if_pos hg]
        exact List.sublist_cons_self _ _
      · simp only [storeErase, if_neg hg]
        exact ih.cons₂ _

theorem storeErase_length {l : List (Nat × LRUKNode)} {f : Nat} {old : LRUKNode}
    (h : storeLookup l f = some old) : (storeErase l f).length + 1 = l.length := by
  induction l with
  | nil => simp [storeLookup] at h
  | cons q rest ih =>
      obtain ⟨g, n⟩ := q
      by_cases hg : g = f
      · simp [storeErase, hg]
      · simp only [storeLookup, if_neg hg] at h
        simp only [storeErase, if_neg hg, List.length_cons]
        have := ih h
        omega

theorem countEvictable_storeErase {l : List (Nat × LRUKNode)} {f : Nat}
    {old : LRUKNode} (h : storeLookup l f = some old) :
    countEvictable (storeErase l f) + (if old.is_evictable then 1 else 0) =
      countEvictable l := by
  induction l with
  | nil => simp [storeLookup] at h
  | cons q rest ih =>
      obtain ⟨g, n⟩ := q
      by_cases hg : g = f
      · subst hg
        have hno : n = old := by simpa [storeLookup] using h
        rw [← hno]
        simp only [storeErase, if_true, eq_self_iff_true, countEvictable, List.countP_cons]
      · simp only [storeLookup, if_neg hg] at h
        have hrest := ih h
        simp only [storeErase, if_neg hg, countEvictable, List.countP_cons] at hrest ⊢
        by_cases h1 : n.is_evictable <;> simp [h1]
        all_goals omega

theorem countEvictable_pos {l : List (Nat × LRUKNode)} {q : Nat × LRUKNode}
    (hq : q ∈ l) (hev : q.2.is_evictable = true) : 1 ≤ countEvictable l := by
  have : 0 < l.countP (fun p => p.2.is_evictable) :=
    List.countP_pos_iff.mpr ⟨q, hq, by simp [hev]⟩
  simpa [countEvictable] using this

theorem mem_record_history {n : LRUKNode} {t x : Nat}
    (h : x ∈ (n.record_history t).history) : x ∈ n.history ∨ x = t := by
  simp only [LRUKNode.record_history] at h
  by_cases hlen : (n.history ++ [t]).length > n.max_accesses
  · simp only [if_pos hlen] at h
    have : x ∈ n.history ++ [t] := (List.tail_sublist _).mem h
    simpa using this
  · simp only [if_neg hlen] at h
    simpa using h

theorem record_history_ne_nil {n : LRUKNode} {t : Nat}
    (hk : 1 ≤ n.max_accesses) : (n.record_history t).history ≠ [] := by
  unfold LRUKNode.record_history
  split
  · rename_i hlen
    cases hh : n.history with
    | nil =>
        rw [hh] at hlen
        simp at hlen
        exfalso
        omega
    | cons a h2 =>
        simp
  · simp

theorem record_history_is_evictable (n : LRUKNode) (t : Nat) :
    (n.record_history t).is_evictable = n.is_evictable := by
  unfold LRUKNode.record_history
  split <;> rfl

theorem set_evictable_history (n : LRUKNode) (b : Bool) :
    (n.set_evictable b).history = n.history := rfl

theorem set_evictable_is_evictable (n : LRUKNode) (b : Bool) :
    (n.set_evictable b).is_evictable = b := rfl

theorem record_history_ne_nil_of_ne_nil {n : LRUKNode} {t : Nat}
    (h : n.history ≠ []) : (n.record_history t).history ≠ [] := by
  unfold LRUKNode.record_history
  split
  · cases hh : n.history with
    | nil => exact absurd hh h
    | cons a h2 => simp
  · simp

theorem record_access_existing {r : LRUKReplacer} {f : Nat} {node : LRUKNode}
    (hl : storeLookup r.state.node_store f = some node) :
    r.record_access f = (Except.ok {},
      { r with state :=
        { r.state with
          node_store := storeUpdate r.state.node_store f
            (node.record_history r.state.current_timestamp)
          current_timestamp := r.state.current_timestamp + 1 } }) := by
  simp [LRUKReplacer.record_access, hl]

theorem record_access_full {r : LRUKReplacer} {f : Nat}
    (hl : storeLookup r.state.node_store f = none)
    (hlen : r.state.node_store.length > r.replacer_size) :
    r.record_access f =
      (Except.error (CrabDBError.new "Frame cannot exceed replacer size"), r) := by
  simp [LRUKReplacer.record_access, hl, hlen]

theorem record_access_fresh {r : LRUKReplacer} {f : Nat}
    (hl : storeLookup r.state.node_store f = none)
    (hlen : ¬ r.state.node_store.length > r.replacer_size) :
    r.record_access f = (Except.ok {},
      { r with state :=
        { r.state with
          node_store := r.state.node_store ++
            [(f, (LRUKNode.new r.max_accesses f).record_history
                r.state.current_timestamp)]
          current_timestamp := r.state.current_timestamp + 1 } }) := by
  simp [LRUKReplacer.record_access, hl, hlen]

theorem remove_untracked {r : LRUKReplacer} {f : Nat}
    (hl : storeLookup r.state.node_store f = none) :
    r.remove f =
      (Except.error (CrabDBError.new "Frame doesn\x27t exist; invalid remove command"),
        r) := by
  simp [LRUKReplacer.remove, hl]

theorem remove_not_evictable {r : LRUKReplacer} {f : Nat} {node : LRUKNode}
    (hl : storeLookup r.state.node_store f = some node)
    (hev : node.is_evictable = false) :
    r.remove f =
      (Except.error (CrabDBError.new "Frame is marked as not evictable"), r) := by
  simp [LRUKReplacer.remove, hl, hev]

theorem remove_ok {r : LRUKReplacer} {f : Nat} {node : LRUKNode}
    (hl : storeLookup r.state.node_store f = some node)
    (hev : node.is_evictable = true) :
    r.remove f = (Except.ok {},
      { r with state :=
        { r.state with
          node_store := storeErase r.state.node_store f
          current_size := r.state.current_size - 1 } }) := by
  simp [LRUKReplacer.remove, hl, hev]

theorem set_evictable_untracked {r : LRUKReplacer} {f : Nat} {b : Bool}
    (hl : storeLookup r.state.node_store f = none) :
    r.set_evictable f b =
      (Except.error (CrabDBError.new "Frame doesn\x27t exist to set_evictable"), r) := by
  simp [LRUKReplacer.set_evictable, hl]

theorem set_evictable_noop {r : LRUKReplacer} {f : Nat} {b : Bool} {node : LRUKNode}
    (hl : storeLookup r.state.node_store f = some node)
    (hsame : node.is_evictable = b) :
    r.set_evictable f b = (Except.ok {}, r) := by
  cases b <;> simp [LRUKReplacer.set_evictable, hl, hsame]

theorem set_evictable_to_false {r : LRUKReplacer} {f : Nat} {node : LRUKNode}
    (hl : storeLookup r.state.node_store f = some node)
    (hev : node.is_evictable = true) :
    r.set_evictable f false = (Except.ok {},
      { r with state :=
        { r.state with
          node_store := storeUpdate r.state.node_store f (node.set_evictable false)
          current_size := r.state.current_size - 1 } }) := by
  simp [LRUKReplacer.set_evictable, hl, hev]

theorem set_evictable_to_true {r : LRUKReplacer} {f : Nat} {node : LRUKNode}
    (hl : storeLookup r.state.node_store f = some node)
    (hev : node.is_evictable = false) :
    r.set_evictable f true = (Except.ok {},
      { r with state :=
        { r.state with
          node_store := storeUpdate r.state.node_store f (node.set_evictable true)
          current_size := r.state.current_size + 1 } }) := by
  simp [LRUKReplacer.set_evictable, hl, hev]

theorem wf_record_access {C k : Nat} {r : LRUKReplacer} (hk : 1 ≤ k)
    (h : WF C k r) (f : Nat) : WF C k (r.record_access f).2 := by
  cases hl : storeLookup r.state.node_store f with
  | some node =>
      rw [record_access_existing hl]
      have hmem : (f, node) ∈ r.state.node_store := storeLookup_mem hl
      refine ⟨h.param_size, h.param_k, ?_, ?_, ?_, ?_, ?_⟩
      · simpa [storeUpdate_map_fst] using h.keys_nodup
      · intro q hq
        rcases mem_storeUpdate hq with h1 | h1
        · exact h.hist_ne q h1
        · subst h1
          exact record_history_ne_nil_of_ne_nil (h.hist_ne _ hmem)
      · intro q hq t ht
        rcases mem_storeUpdate hq with h1 | h1
        · exact Nat.lt_succ_of_lt (h.hist_lt q h1 t ht)
        · subst h1
          rcases mem_record_history ht with h2 | h2
          · exact Nat.lt_succ_of_lt (h.hist_lt _ hmem t h2)
          · rw [h2]
            exact Nat.lt_succ_self _
      · have := countEvictable_storeUpdate
          (node.record_history r.state.current_timestamp) hl
        rw [record_history_is_evictable] at this
        have hc := h.count_eq
        simp only at *
        omega
      · simpa [storeUpdate_length] using h.len_le
  | none =>
      by_cases hlen : r.state.node_store.length > r.replacer_size
      · rw [record_access_full hl hlen]
        exact h
      · rw [record_access_fresh hl hlen]
        have hnotin : ∀ q ∈ r.state.node_store, q.1 ≠ f :=
          (storeLookup_eq_none_iff _ _).mp hl
        refine ⟨h.param_size, h.param_k, ?_, ?_, ?_, ?_, ?_⟩
        · simp only [List.map_append, List.map_cons, List.map_nil]
          rw [List.nodup_append]
          refine ⟨h.keys_nodup, List.nodup_singleton _, ?_⟩
          intro a ha hb
          simp at hb
          subst hb
          rcases List.mem_map.mp ha with ⟨q, hq, hq2⟩
          exact hnotin q hq hq2
        · intro q hq
          rcases List.mem_append.mp hq with h1 | h1
          · exact h.hist_ne q h1
          · simp at h1
            subst h1
            apply record_history_ne_nil
            show 1 ≤ (LRUKNode.new r.max_accesses f).max_accesses
            rw [show (LRUKNode.new r.max_accesses f).max_accesses = r.max_accesses from rfl,
              h.param_k]
            exact hk
        · intro q hq t ht
          rcases List.mem_append.mp hq with h1 | h1
          · exact Nat.lt_succ_of_lt (h.hist_lt q h1 t ht)
          · simp at h1
            subst h1
            rcases mem_record_history ht with h2 | h2
            · simp [LRUKNode.new] at h2
            · rw [h2]
              exact Nat.lt_succ_self _
        · rw [countEvictable_append]
          rw [record_history_is_evictable]
          simp [LRUKNode.new]
          exact h.count_eq
        · simp only [List.length_append, List.length_cons, List.length_nil]
          have hsz := h.param_size
          have hlen2 : r.state.node_store.length ≤ r.replacer_size := by omega
          omega

theorem wf_set_evictable {C k : Nat} {r : LRUKReplacer}
    (h : WF C k r) (f : Nat) (b : Bool) : WF C k (r.set_evictable f b).2 := by
  cases hl : storeLookup r.state.node_store f with
  | none =>
      rw [set_evictable_untracked hl]
      exact h
  | some node =>
      have hmem : (f, node) ∈ r.state.node_store := storeLookup_mem hl
      by_cases hsame : node.is_evictable = b
      · rw [set_evictable_noop hl hsame]
        exact h
      · have hwf2 : ∀ (b2 : Bool) (size2 : Nat),
            size2 = countEvictable (storeUpdate r.state.node_store f
              (node.set_evictable b2)) →
            WF C k { r with state :=
              { r.state with
                node_store := storeUpdate r.state.node_store f (node.set_evictable b2)
                current_size := size2 } } := by
          intro b2 size2 hs2
          refine ⟨h.param_size, h.param_k, ?_, ?_, ?_, hs2, ?_⟩
          · simpa [storeUpdate_map_fst] using h.keys_nodup
          · intro q hq
            rcases mem_storeUpdate hq with h1 | h1
            · exact h.hist_ne q h1
            · subst h1
              simpa [set_evictable_history] using h.hist_ne _ hmem
          · intro q hq t ht
            rcases mem_storeUpdate hq with h1 | h1
            · exact h.hist_lt q h1 t ht
            · subst h1
              rw [set_evictable_history] at ht
              exact h.hist_lt _ hmem t ht
          · simpa [storeUpdate_length] using h.len_le
        cases b with
        | false =>
            have hev : node.is_evictable = true := by
              cases hb : node.is_evictable
              · exact absurd hb hsame
              · rfl
            rw [set_evictable_to_false hl hev]
            apply hwf2
            have := countEvictable_storeUpdate (node.set_evictable false) hl
            rw [set_evictable_is_evictable] at this
            have hc := h.count_eq
            rw [hev] at this
            simp at this
            omega
        | true =>
            have hev : node.is_evictable = false := by
              cases hb : node.is_evictable
              · rfl
              · exact absurd hb hsame
            rw [set_evictable_to_true hl hev]
            apply hwf2
            have := countEvictable_storeUpdate (node.set_evictable true) hl
            rw [set_evictable_is_evictable] at this
            have hc := h.count_eq
            rw [hev] at this
            simp at this
            omega

theorem wf_remove {C k : Nat} {r : LRUKReplacer}
    (h : WF C k r) (f : Nat) : WF C k (r.remove f).2 := by
  cases hl : storeLookup r.state.node_store f with
  | none =>
      rw [remove_untracked hl]
      exact h
  | some node =>
      cases hev : node.is_evictable with
      | false =>
          rw [remove_not_evictable hl hev]
          exact h
      | true =>
          rw [remove_ok hl hev]
          have hsub := storeErase_sublist r.state.node_store f
          refine ⟨h.param_size, h.param_k, ?_, ?_, ?_, ?_, ?_⟩
          · exact (hsub.map Prod.fst).nodup h.keys_nodup
          · intro q hq
            exact h.hist_ne q (hsub.mem hq)
          · intro q hq t ht
            exact h.hist_lt q (hsub.mem hq) t ht
          · have := countEvictable_storeErase hl
            rw [hev] at this
            simp only [if_true] at this
            have hc := h.count_eq
            simp only
            omega
          · have := storeErase_length hl
            have := h.len_le
            simp only
            omega

theorem evict_state_cases {r : LRUKReplacer}
    {p : CrabDbResult EvictionResponse × LRUKReplacer} (h : r.evict = some p) :
    p.2 = r ∨ ∃ f, p.2 = (r.remove f).2 := by
  unfold LRUKReplacer.evict at h
  rcases hscan : r.state.node_store.foldl
      (evictScanStep r.state.current_timestamp r.max_accesses) (some (none, 0)) with
    _ | ⟨best, d⟩
  · rw [hscan] at h
    simp at h
  · rw [hscan] at h
    cases best with
    | none =>
        simp at h
        left
        rw [← h]
    | some frame =>
        rcases hrm : r.remove frame with ⟨res, r2⟩
        simp only [hrm] at h
        cases res with
        | ok v =>
            simp at h
            right
            exact ⟨frame, by rw [← h, hrm]⟩
        | error e =>
            simp at h
            right
            exact ⟨frame, by rw [← h, hrm]⟩

theorem wf_evict {C k : Nat} {r : LRUKReplacer}
    {p : CrabDbResult EvictionResponse × LRUKReplacer}
    (h : WF C k r) (hp : r.evict = some p) : WF C k p.2 := by
  rcases evict_state_cases hp with h1 | ⟨f, h1⟩
  · rw [h1]
    exact h
  · rw [h1]
    exact wf_remove h f

theorem wf_new (C k : Nat) : WF C k (LRUKReplacer.new C k) := by
  refine ⟨rfl, rfl, ?_, ?_, ?_, ?_, ?_⟩ <;>
    simp [LRUKReplacer.new, countEvictable]

theorem reachable_wf {C k : Nat} {r : LRUKReplacer} (hk : 1 ≤ k)
    (h : Reachable C k r) : WF C k r := by
  induction h with
  | init => exact wf_new C k
  | step hr hs ih =>
      cases hs with
      | record_access f => exact wf_record_access hk ih f
      | set_evictable f b => exact wf_set_evictable ih f b
      | remove f => exact wf_remove ih f
      | evict p hp => exact wf_evict ih hp

theorem evictScanStep_not_evictable {clock k : Nat} {q : Nat × LRUKNode}
    (hev : q.2.is_evictable = false) (a : Option Nat × Nat) :
    evictScanStep clock k (some a) q = some a := by
  rcases a with ⟨ev, maxd⟩
  simp [evictScanStep, hev]

theorem evictScanStep_evictable {clock k : Nat} {q : Nat × LRUKNode}
    {e0 : Nat} {tl : List Nat}
    (hev : q.2.is_evictable = true) (hh : q.2.history = e0 :: tl)
    (a : Option Nat × Nat) :
    evictScanStep clock k (some a) q =
      if backwardKDistance clock k q.2 > a.2 then
        some (some q.1, backwardKDistance clock k q.2)
      else some a := by
  rcases a with ⟨ev, maxd⟩
  simp only [evictScanStep, hev, if_true, LRUKNode.history_length,
    LRUKNode.front_of_history, hh, List.length_cons, List.head?_cons,
    backwardKDistance, Option.getD_some]
  simp

theorem scan_spec (clock k : Nat) (l : List (Nat × LRUKNode))
    (hne : ∀ q ∈ l, q.2.is_evictable = true → q.2.history ≠ [])
    (a : Option Nat × Nat) :
    ∃ b d, l.foldl (evictScanStep clock k) (some a) = some (b, d) ∧
      a.2 ≤ d ∧
      (∀ q ∈ l, q.2.is_evictable = true →
        backwardKDistance clock k q.2 ≤ d) ∧
      ((b = a.1 ∧ d = a.2) ∨
        ∃ q ∈ l, b = some q.1 ∧ q.2.is_evictable = true ∧
          d = backwardKDistance clock k q.2) := by
  induction l generalizing a with
  | nil =>
      exact ⟨a.1, a.2, rfl, le_refl _, by simp, Or.inl ⟨rfl, rfl⟩⟩
  | cons q rest ih =>
      have hne_rest : ∀ p ∈ rest, p.2.is_evictable = true → p.2.history ≠ [] :=
        fun p hp => hne p (List.mem_cons_of_mem _ hp)
      cases hev : q.2.is_evictable with
      | false =>
          rcases ih hne_rest a with ⟨b, d, hfold, hle, hmax, hdisj⟩
          refine ⟨b, d, ?_, hle, ?_, ?_⟩
          · rw [List.foldl_cons, evictScanStep_not_evictable hev]
            exact hfold
          · intro p hp hpev
            rcases List.mem_cons.mp hp with h1 | h1
            · rw [h1] at hpev
              rw [hpev] at hev
              cases hev
            · exact hmax p h1 hpev
          · rcases hdisj with h1 | ⟨p, hp, h1⟩
            · exact Or.inl h1
            · exact Or.inr ⟨p, List.mem_cons_of_mem _ hp, h1⟩
      | true =>
          have hqne := hne q (List.mem_cons_self _ _) hev
          obtain ⟨e0, tl, hh⟩ : ∃ e0 tl, q.2.history = e0 :: tl := by
            cases hhist : q.2.history with
            | nil => exact absurd hhist hqne
            | cons e0 tl => exact ⟨e0, tl, rfl⟩
          by_cases hgt : backwardKDistance clock k q.2 > a.2
          · rcases ih hne_rest (some q.1, backwardKDistance clock k q.2) with
              ⟨b, d, hfold, hle, hmax, hdisj⟩
            refine ⟨b, d, ?_, ?_, ?_, ?_⟩
            · rw [List.foldl_cons, evictScanStep_evictable hev hh, if_pos hgt]
              exact hfold
            · exact le_trans (le_of_lt hgt) hle
            · intro p hp hpev
              rcases List.mem_cons.mp hp with h1 | h1
              · rw [h1]
                exact hle
              · exact hmax p h1 hpev
            · rcases hdisj with ⟨h1, h2⟩ | ⟨p, hp, h1⟩
              · exact Or.inr ⟨q, List.mem_cons_self _ _, h1, hev, h2⟩
              · exact Or.inr ⟨p, List.mem_cons_of_mem _ hp, h1⟩
          · rcases ih hne_rest a with ⟨b, d, hfold, hle, hmax, hdisj⟩
            refine ⟨b, d, ?_, hle, ?_, ?_⟩
            · rw [List.foldl_cons, evictScanStep_evictable hev hh, if_neg hgt]
              exact hfold
            · intro p hp hpev
              rcases List.mem_cons.mp hp with h1 | h1
              · rw [h1]
                omega
              · exact hmax p h1 hpev
            · rcases hdisj with h1 | ⟨p, hp, h1⟩
              · exact Or.inl h1
              · exact Or.inr ⟨p, List.mem_cons_of_mem _ hp, h1⟩

theorem isOk_ok {α : Type} (v : α) : (Except.ok v : CrabDbResult α).isOk = true := rfl

theorem isOk_error {α : Type} (e : CrabDBError) :
    (Except.error e : CrabDbResult α).isOk = false := rfl

theorem record_access_error_state {r : LRUKReplacer} {f : Nat}
    (h : (r.record_access f).1.isOk = false) : (r.record_access f).2 = r := by
  cases hl : storeLookup r.state.node_store f with
  | some node =>
      rw [record_access_existing hl] at h
      rw [isOk_ok] at h
      cases h
  | none =>
      by_cases hlen : r.state.node_store.length > r.replacer_size
      · rw [record_access_full hl hlen]
      · rw [record_access_fresh hl hlen] at h
        rw [isOk_ok] at h
        cases h

theorem remove_error_state {r : LRUKReplacer} {f : Nat}
    (h : (r.remove f).1.isOk = false) : (r.remove f).2 = r := by
  cases hl : storeLookup r.state.node_store f with
  | some node =>
      cases hev : node.is_evictable with
      | true =>
          rw [remove_ok hl hev] at h
          rw [isOk_ok] at h
          cases h
      | false =>
          rw [remove_not_evictable hl hev]
  | none =>
      rw [remove_untracked hl]

theorem set_evictable_error_state {r : LRUKReplacer} {f : Nat} {b : Bool}
    (h : (r.set_evictable f b).1.isOk = false) : (r.set_evictable f b).2 = r := by
  cases hl : storeLookup r.state.node_store f with
  | some node =>
      by_cases hsame : node.is_evictable = b
      · rw [set_evictable_noop hl hsame] at h
        rw [isOk_ok] at h
        cases h
      · cases b with
        | false =>
            have hev : node.is_evictable = true := by
              cases hb : node.is_evictable
              · exact absurd hb hsame
              · rfl
            rw [set_evictable_to_false hl hev] at h
            rw [isOk_ok] at h
            cases h
        | true =>
            have hev : node.is_evictable = false := by
              cases hb : node.is_evictable
              · rfl
              · exact absurd hb hsame
            rw [set_evictable_to_true hl hev] at h
            rw [isOk_ok] at h
            cases h
  | none =>
      rw [set_evictable_untracked hl]

theorem record_access_clock {r : LRUKReplacer} {f : Nat}
    (h : (r.record_access f).1.isOk = true) :
    (r.record_access f).2.state.current_timestamp = r.state.current_timestamp + 1 := by
  cases hl : storeLookup r.state.node_store f with
  | some node =>
      rw [record_access_existing hl]
  | none =>
      by_cases hlen : r.state.node_store.length > r.replacer_size
      · rw [record_access_full hl hlen] at h
        rw [isOk_error] at h
        cases h
      · rw [record_access_fresh hl hlen]

/-- C1: `record_access` on an unseen frame is rejected only when the map already
holds strictly more than `replacer_size` entries, so a replacer of capacity 1
admits a second distinct frame (the claimed capacity-exceeded failure does not
happen), tracks 2 frames, and only a third distinct frame is rejected. -/
theorem capacity_check_admits_extra_frame :
    (((LRUKReplacer.new 1 2).record_access 1).2.record_access 2).1.isOk = true ∧
    ((((LRUKReplacer.new 1 2).record_access 1).2.record_access 2).2).state.node_store.length
      = 2 ∧
    (((((LRUKReplacer.new 1 2).record_access 1).2.record_access 2).2).record_access
      3).1.isOk = false := by
  decide

/-- C4: every contract operation that returns an error leaves the replacer state
(tracked map, histories, evictable flags, evictable count, clock) exactly as it
was before the call, and `size` never fails. -/
theorem errors_leave_state_unchanged (r : LRUKReplacer) (f : Nat) (b : Bool) :
    ((r.record_access f).1.isOk = false → (r.record_access f).2 = r) ∧
    ((r.remove f).1.isOk = false → (r.remove f).2 = r) ∧
    ((r.set_evictable f b).1.isOk = false → (r.set_evictable f b).2 = r) ∧
    (∀ p, r.evict = some p → p.1.isOk = false → p.2 = r) ∧
    (r.size).isOk = true := by
  refine ⟨record_access_error_state, remove_error_state, set_evictable_error_state,
    ?_, rfl⟩
  intro p hp hfail
  unfold LRUKReplacer.evict at hp
  rcases hscan : r.state.node_store.foldl
      (evictScanStep r.state.current_timestamp r.max_accesses) (some (none, 0)) with
    _ | ⟨best, d⟩
  · rw [hscan] at hp
    simp at hp
  · rw [hscan] at hp
    cases best with
    | none =>
        simp at hp
        rw [← hp] at hfail
        rw [isOk_ok] at hfail
        cases hfail
    | some frame =>
        rcases hrm : r.remove frame with ⟨res, r2⟩
        simp only [hrm] at hp
        cases res with
        | ok v =>
            simp at hp
            rw [← hp] at hfail
            rw [isOk_ok] at hfail
            cases hfail
        | error e =>
            simp at hp
            have hr2 : r2 = r := by
              have h2 : (r.remove frame).1.isOk = false := by
                rw [hrm]
                exact isOk_error e
              have h3 := remove_error_state h2
              rw [hrm] at h3
              exact h3
            rw [← hp, hr2]

/-- Witness for C4 at a concrete failing input: a capacity-0 replacer tracking
frame 1 rejects `record_access 2` and is left unchanged. -/
theorem errors_leave_state_unchanged_witness :
    ((((LRUKReplacer.new 0 2).record_access 1).2.record_access 2).1.isOk = false) ∧
    (((LRUKReplacer.new 0 2).record_access 1).2.record_access 2).2 =
      ((LRUKReplacer.new 0 2).record_access 1).2 :=
  ⟨by decide,
    (errors_leave_state_unchanged ((LRUKReplacer.new 0 2).record_access 1).2 2
      true).1 (by decide)⟩

/-- C3: in every reachable state, `size()` returns exactly the number of tracked
frames whose evictable flag is true. -/
theorem size_eq_evictable_count {C k : Nat} {r : LRUKReplacer}
    (hk : 1 ≤ k) (h : Reachable C k r) :
    r.size = Except.ok { num_evictable_frames := countEvictable r.state.node_store } := by
  have hwf := reachable_wf hk h
  rw [LRUKReplacer.size, hwf.count_eq]

/-- Witness for C3: the invariant evaluated on the state reached by
`record_access 1` then `set_evictable 1 true` from a fresh (7, 2) replacer. -/
theorem size_eq_evictable_count_witness :
    ((((LRUKReplacer.new 7 2).record_access 1).2.set_evictable 1 true).2).size =
      Except.ok { num_evictable_frames :=
        countEvictable ((((LRUKReplacer.new 7 2).record_access 1).2.set_evictable 1
          true).2).state.node_store } :=
  size_eq_evictable_count (by decide)
    (Reachable.step (Reachable.step Reachable.init
      (ReplacerStep.record_access _ 1)) (ReplacerStep.set_evictable _ 1 true))

/-- C10: in every reachable state at most `replacer_size + 1` distinct frames are
tracked, and `record_access` on an unseen frame succeeds exactly when at most
`replacer_size` frames are currently tracked. -/
theorem tracked_le_capacity_succ {C k : Nat} {r : LRUKReplacer}
    (hk : 1 ≤ k) (h : Reachable C k r) :
    r.state.node_store.length ≤ C + 1 ∧
    ∀ f, storeLookup r.state.node_store f = none →
      ((r.record_access f).1.isOk = true ↔ r.state.node_store.length ≤ C) := by
  have hwf := reachable_wf hk h
  refine ⟨hwf.len_le, ?_⟩
  intro f hf
  by_cases hlen : r.state.node_store.length > r.replacer_size
  · rw [record_access_full hf hlen]
    constructor
    · intro hok
      rw [isOk_error] at hok
      cases hok
    · intro hle
      rw [hwf.param_size] at hlen
      omega
  · rw [record_access_fresh hf hlen]
    constructor
    · intro _
      rw [hwf.param_size] at hlen
      omega
    · intro _
      exact isOk_ok _

/-- Witness for C10 on the state reached by two accesses from a fresh (1, 2)
replacer: 2 ≤ 1 + 1 frames tracked and a third distinct frame is rejected. -/
theorem tracked_le_capacity_succ_witness :
    ((((LRUKReplacer.new 1 2).record_access 1).2.record_access 2).2).state.node_store.length
      ≤ 1 + 1 ∧
    ((((((LRUKReplacer.new 1 2).record_access 1).2.record_access 2).2).record_access
      3).1.isOk = true ↔
      ((((LRUKReplacer.new 1 2).record_access 1).2.record_access
        2).2).state.node_store.length ≤ 1) :=
  ⟨(tracked_le_capacity_succ (by decide)
      (Reachable.step (Reachable.step Reachable.init
        (ReplacerStep.record_access _ 1)) (ReplacerStep.record_access _ 2))).1,
    (tracked_le_capacity_succ (by decide)
      (Reachable.step (Reachable.step Reachable.init
        (ReplacerStep.record_access _ 1)) (ReplacerStep.record_access _ 2))).2 3
      (by decide)⟩

theorem issuedTimestamps_lb (fs : List Nat) :
    ∀ (r : LRUKReplacer), ∀ t ∈ issuedTimestamps r fs,
      r.state.current_timestamp ≤ t := by
  induction fs with
  | nil =>
      intro r t ht
      simp [issuedTimestamps] at ht
  | cons f fs ih =>
      intro r t ht
      by_cases hok : (r.record_access f).1.isOk = true
      · simp only [issuedTimestamps, hok, if_true] at ht
        rcases List.mem_cons.mp ht with h1 | h1
        · omega
        · have h2 := ih _ t h1
          have h3 := record_access_clock hok
          omega
      · simp only [issuedTimestamps, hok, if_false] at ht
        have h2 := ih _ t ht
        have h3 := record_access_error_state (Bool.not_eq_true _ ▸ hok)
        rw [h3] at h2
        exact h2

theorem issuedTimestamps_sorted (fs : List Nat) :
    ∀ r : LRUKReplacer, (issuedTimestamps r fs).Pairwise (· < ·) := by
  induction fs with
  | nil =>
      intro r
      simp [issuedTimestamps]
  | cons f fs ih =>
      intro r
      by_cases hok : (r.record_access f).1.isOk = true
      · simp only [issuedTimestamps, hok, if_true]
        refine List.Pairwise.cons ?_ (ih _)
        intro t ht
        have h1 := issuedTimestamps_lb fs _ t ht
        have h2 := record_access_clock hok
        omega
      · simp only [issuedTimestamps, hok, if_false]
        exact ih _

/-- C5: the clock starts at 1, every successful `record_access` (new or existing
frame alike) increments it by exactly 1 and stamps the pre-call clock value, so
over any sequence of `record_access` calls the recorded timestamps are strictly
increasing in call order (hence pairwise distinct). -/
theorem clock_monotonic (C k : Nat) :
    (LRUKReplacer.new C k).state.current_timestamp = 1 ∧
    (∀ (r : LRUKReplacer) (f : Nat), (r.record_access f).1.isOk = true →
      (r.record_access f).2.state.current_timestamp = r.state.current_timestamp + 1) ∧
    ∀ fs : List Nat,
      (issuedTimestamps (LRUKReplacer.new C k) fs).Pairwise (· < ·) :=
  ⟨rfl, fun _ _ h => record_access_clock h, fun fs => issuedTimestamps_sorted fs _⟩

/-- Witness for C5: a concrete successful call increments the clock by exactly 1. -/
theorem clock_monotonic_witness :
    ((LRUKReplacer.new 7 2).record_access 1).2.state.current_timestamp =
      (LRUKReplacer.new 7 2).state.current_timestamp + 1 :=
  (clock_monotonic 7 2).2.1 (LRUKReplacer.new 7 2) 1 (by decide)

theorem record_history_max_accesses (n : LRUKNode) (t : Nat) :
    (n.record_history t).max_accesses = n.max_accesses := by
  unfold LRUKNode.record_history
  split <;> rfl

theorem foldl_record_history_max (ts : List Nat) :
    ∀ n : LRUKNode, (ts.foldl LRUKNode.record_history n).max_accesses =
      n.max_accesses := by
  induction ts with
  | nil =>
      intro n
      rfl
  | cons t ts ih =>
      intro n
      rw [List.foldl_cons, ih, record_history_max_accesses]

theorem record_history_of_gt {n : LRUKNode} {t : Nat}
    (h : (n.history ++ [t]).length > n.max_accesses) :
    n.record_history t = { n with history := (n.history ++ [t]).tail } := by
  unfold LRUKNode.record_history
  rw [if_pos h]

theorem record_history_of_le {n : LRUKNode} {t : Nat}
    (h : ¬ (n.history ++ [t]).length > n.max_accesses) :
    n.record_history t = { n with history := n.history ++ [t] } := by
  unfold LRUKNode.record_history
  rw [if_neg h]

theorem foldl_record_history_drop (k : Nat) (f : Nat) (ts : List Nat) :
    (ts.foldl LRUKNode.record_history (LRUKNode.new k f)).history =
      ts.drop (ts.length - k) := by
  induction ts using List.reverseRecOn with
  | nil =>
      simp [LRUKNode.new]
  | append_singleton ts t ih =>
      rw [List.foldl_append, List.foldl_cons, List.foldl_nil]
      have hmax : (List.foldl LRUKNode.record_history (LRUKNode.new k f)
          ts).max_accesses = k := foldl_record_history_max ts _
      have hlen : (List.foldl LRUKNode.record_history (LRUKNode.new k f)
          ts).history.length = ts.length - (ts.length - k) := by
        rw [ih, List.length_drop]
      by_cases hk : k ≤ ts.length
      · have hcond : ((List.foldl LRUKNode.record_history (LRUKNode.new k f)
            ts).history ++ [t]).length >
            (List.foldl LRUKNode.record_history (LRUKNode.new k f)
              ts).max_accesses := by
          rw [List.length_append, hlen, hmax, List.length_singleton]
          omega
        rw [record_history_of_gt hcond]
        show ((List.foldl LRUKNode.record_history (LRUKNode.new k f)
          ts).history ++ [t]).tail = _
        rw [ih,
          ← List.drop_append_of_le_length
            (show ts.length - k ≤ ts.length from by omega),
          List.tail_drop]
        simp only [List.length_append, List.length_singleton]
        congr 1
        omega
      · have hcond : ¬ ((List.foldl LRUKNode.record_history (LRUKNode.new k f)
            ts).history ++ [t]).length >
            (List.foldl LRUKNode.record_history (LRUKNode.new k f)
              ts).max_accesses := by
          rw [List.length_append, hlen, hmax, List.length_singleton]
          omega
        rw [record_history_of_le hcond]
        show (List.foldl LRUKNode.record_history (LRUKNode.new k f)
          ts).history ++ [t] = _
        rw [ih]
        have h1 : ts.length - k = 0 := by omega
        have h2 : (ts ++ [t]).length - k = 0 := by
          rw [List.length_append, List.length_singleton]
          omega
        rw [h1, h2, List.drop_zero, List.drop_zero]

/-- C6: feeding a node the sequence of timestamps issued to its frame, the
history is exactly the last `min n k` of them (oldest first, realised as
dropping the `n - k` oldest), so after more than k accesses its length is
exactly k with the oldest surplus dropped from the front. -/
theorem history_window_last_k (k : Nat) (f : Nat) (ts : List Nat) :
    (ts.foldl LRUKNode.record_history (LRUKNode.new k f)).history =
      ts.drop (ts.length - k) ∧
    (ts.foldl LRUKNode.record_history (LRUKNode.new k f)).history.length =
      min ts.length k := by
  refine ⟨foldl_record_history_drop k f ts, ?_⟩
  rw [foldl_record_history_drop k f ts, List.length_drop]
  rcases Nat.le_total ts.length k with h | h
  · rw [Nat.min_eq_left h]
    omega
  · rw [Nat.min_eq_right h]
    omega

/-- C8: `remove` fails exactly on untracked frames (unknown-frame error) or on
tracked non-evictable frames (not-evictable error), in both cases leaving the
whole state unchanged; on a tracked evictable frame it succeeds, deletes the
tracker and decreases `size()` by exactly 1. -/
theorem remove_spec {C k : Nat} {r : LRUKReplacer} (hk : 1 ≤ k)
    (h : Reachable C k r) (f : Nat) :
    (storeLookup r.state.node_store f = none →
      r.remove f = (Except.error
        (CrabDBError.new "Frame doesn\x27t exist; invalid remove command"), r)) ∧
    (∀ nd, storeLookup r.state.node_store f = some nd → nd.is_evictable = false →
      r.remove f = (Except.error
        (CrabDBError.new "Frame is marked as not evictable"), r)) ∧
    (∀ nd, storeLookup r.state.node_store f = some nd → nd.is_evictable = true →
      (r.remove f).1.isOk = true ∧
      (r.remove f).2.state.node_store = storeErase r.state.node_store f ∧
      (r.remove f).2.state.current_size + 1 = r.state.current_size) ∧
    ((r.remove f).1.isOk = false ↔
      storeLookup r.state.node_store f = none ∨
      ∃ nd, storeLookup r.state.node_store f = some nd ∧
        nd.is_evictable = false) := by
  have hwf := reachable_wf hk h
  refine ⟨?_, ?_, ?_, ?_⟩
  · intro hl
    exact remove_untracked hl
  · intro nd hl hev
    exact remove_not_evictable hl hev
  · intro nd hl hev
    rw [remove_ok hl hev]
    refine ⟨rfl, rfl, ?_⟩
    have hpos : 1 ≤ countEvictable r.state.node_store :=
      countEvictable_pos (storeLookup_mem hl) hev
    have hc := hwf.count_eq
    show r.state.current_size - 1 + 1 = r.state.current_size
    omega
  · constructor
    · intro hfail
      cases hl : storeLookup r.state.node_store f with
      | none => exact Or.inl rfl
      | some nd =>
          cases hev : nd.is_evictable with
          | true =>
              rw [remove_ok hl hev] at hfail
              rw [isOk_ok] at hfail
              cases hfail
          | false => exact Or.inr ⟨nd, rfl, hev⟩
    · intro hcase
      rcases hcase with hl | ⟨nd, hl, hev⟩
      · rw [remove_untracked hl]
        exact isOk_error _
      · rw [remove_not_evictable hl hev]
        exact isOk_error _

/-- Witness for C8: removing the tracked evictable frame 1 succeeds, erases its
tracker and decreases the evictable count by 1. -/
theorem remove_spec_witness :
    ((((LRUKReplacer.new 2 2).record_access 1).2.set_evictable 1
        true).2.remove 1).1.isOk = true ∧
    ((((LRUKReplacer.new 2 2).record_access 1).2.set_evictable 1
        true).2.remove 1).2.state.node_store =
      storeErase ((((LRUKReplacer.new 2 2).record_access 1).2.set_evictable 1
        true).2).state.node_store 1 ∧
    ((((LRUKReplacer.new 2 2).record_access 1).2.set_evictable 1
        true).2.remove 1).2.state.current_size + 1 =
      ((((LRUKReplacer.new 2 2).record_access 1).2.set_evictable 1
        true).2).state.current_size :=
  (remove_spec (by decide)
    (Reachable.step (Reachable.step Reachable.init
      (ReplacerStep.record_access _ 1)) (ReplacerStep.set_evictable _ 1 true))
    1).2.2.1
    { max_accesses := 2, history := [1], frame_id := 1, is_evictable := true }
    (by decide) (by decide)

/-- C9: in every reachable state every tracker present in the map has a
non-empty history, so the `panic!`/`expect` abort branches of `evict` (modelled
as the `none` outcome) are unreachable. -/
theorem histories_nonempty_no_abort {C k : Nat} {r : LRUKReplacer}
    (hk : 1 ≤ k) (h : Reachable C k r) :
    (∀ q ∈ r.state.node_store, q.2.history ≠ []) ∧ r.evict ≠ none := by
  have hwf := reachable_wf hk h
  refine ⟨hwf.hist_ne, ?_⟩
  rcases scan_spec r.state.current_timestamp r.max_accesses r.state.node_store
      (fun q hq _ => hwf.hist_ne q hq) (none, 0) with ⟨b, d, hfold, _, _, _⟩
  unfold LRUKReplacer.evict
  rw [hfold]
  cases b with
  | none => simp
  | some frame =>
      rcases hrm : r.remove frame with ⟨res, r2⟩
      cases res <;> simp [hrm]

/-- Witness for C9 on the state reached by one `record_access` from a fresh
(2, 2) replacer. -/
theorem histories_nonempty_no_abort_witness :
    (∀ q ∈ (((LRUKReplacer.new 2 2).record_access 1).2).state.node_store,
      q.2.history ≠ []) ∧
    (((LRUKReplacer.new 2 2).record_access 1).2).evict ≠ none :=
  histories_nonempty_no_abort (by decide)
    (Reachable.step Reachable.init (ReplacerStep.record_access _ 1))

theorem backwardKDistance_pos {C k : Nat} {r : LRUKReplacer} {q : Nat × LRUKNode}
    (hwf : WF C k r) (hclock : r.state.current_timestamp ≤ u64MAX)
    (hq : q ∈ r.state.node_store) :
    1 ≤ backwardKDistance r.state.current_timestamp r.max_accesses q.2 := by
  obtain ⟨e0, tl, hh⟩ : ∃ e0 tl, q.2.history = e0 :: tl := by
    cases hhist : q.2.history with
    | nil => exact absurd hhist (hwf.hist_ne q hq)
    | cons e0 tl => exact ⟨e0, tl, rfl⟩
  have he0 : e0 < r.state.current_timestamp :=
    hwf.hist_lt q hq e0 (by rw [hh]; exact List.mem_cons_self _ _)
  simp only [backwardKDistance, LRUKNode.history_length, LRUKNode.front_of_history,
    hh, List.length_cons, List.head?_cons, Option.getD_some]
  split
  · omega
  · omega

/-- C2: whenever `evict` returns a victim frame, that frame was tracked and
evictable, its backward k-distance (clock − earliest window timestamp for a full
window, `u64::MAX` − earliest timestamp otherwise, so incomplete-history frames
carry the sentinel-based distance and older first accesses yield larger values)
is at least that of every other evictable tracked frame, and the post state is
exactly that of a successful `remove` of the victim, with the evictable count
decremented by 1. -/
theorem evict_victim_spec {C k : Nat} {r r2 : LRUKReplacer} {f : Nat}
    (hk : 1 ≤ k) (hreach : Reachable C k r)
    (he : r.evict = some (Except.ok (EvictionResponse.new (some f)), r2)) :
    ∃ nd, storeLookup r.state.node_store f = some nd ∧
      nd.is_evictable = true ∧
      (∀ g nd2, storeLookup r.state.node_store g = some nd2 →
        nd2.is_evictable = true →
        backwardKDistance r.state.current_timestamp r.max_accesses nd2 ≤
          backwardKDistance r.state.current_timestamp r.max_accesses nd) ∧
      r.remove f = (Except.ok {}, r2) ∧
      r2.state.current_size + 1 = r.state.current_size := by
  have hwf := reachable_wf hk hreach
  rcases scan_spec r.state.current_timestamp r.max_accesses r.state.node_store
      (fun q hq _ => hwf.hist_ne q hq) (none, 0) with ⟨b, d, hfold, hle, hmax, hdisj⟩
  unfold LRUKReplacer.evict at he
  rw [hfold] at he
  cases b with
  | none =>
      simp [EvictionResponse.new] at he
  | some frame =>
      rcases hrm : r.remove frame with ⟨res, rr2⟩
      simp only [hrm] at he
      cases res with
      | error e => simp at he
      | ok v =>
          simp [EvictionResponse.new] at he
          obtain ⟨hfr, hr2⟩ := he
          subst hfr
          subst hr2
          rcases hdisj with ⟨hb, hd⟩ | ⟨q, hq, hbq, hqev, hdq⟩
          · cases hb
          · have hfq : frame = q.1 := by
              simpa using hbq
            subst hfq
            have hmem : (q.1, q.2) ∈ r.state.node_store := by
              simpa using hq
            have hlq : storeLookup r.state.node_store q.1 = some q.2 :=
              mem_storeLookup hwf.keys_nodup hmem
            refine ⟨q.2, hlq, hqev, ?_, ?_, ?_⟩
            · intro g nd2 hl2 hev2
              have h2 := hmax (g, nd2) (storeLookup_mem hl2) hev2
              rw [hdq] at h2
              exact h2
            · obtain ⟨⟩ := v
              rw [remove_ok hlq hqev] at hrm
              have hsnd := congrArg Prod.snd hrm
              simp only at hsnd
              rw [remove_ok hlq hqev, hsnd]
            · rw [remove_ok hlq hqev] at hrm
              have hsnd := congrArg Prod.snd hrm
              simp only at hsnd
              rw [← hsnd]
              have hpos : 1 ≤ countEvictable r.state.node_store :=
                countEvictable_pos hmem hqev
              have hc := hwf.count_eq
              show r.state.current_size - 1 + 1 = r.state.current_size
              omega

/-- Witness for C2: evicting from a (2, 2) replacer tracking the single
evictable frame 1 returns frame 1 and the post state of `remove 1`. -/
theorem evict_victim_spec_witness :
    ∃ nd, storeLookup ((((LRUKReplacer.new 2 2).record_access 1).2.set_evictable
        1 true).2).state.node_store 1 = some nd ∧
      nd.is_evictable = true ∧
      (∀ g nd2, storeLookup ((((LRUKReplacer.new 2 2).record_access
          1).2.set_evictable 1 true).2).state.node_store g = some nd2 →
        nd2.is_evictable = true →
        backwardKDistance ((((LRUKReplacer.new 2 2).record_access
            1).2.set_evictable 1 true).2).state.current_timestamp
          ((((LRUKReplacer.new 2 2).record_access 1).2.set_evictable 1
            true).2).max_accesses nd2 ≤
          backwardKDistance ((((LRUKReplacer.new 2 2).record_access
              1).2.set_evictable 1 true).2).state.current_timestamp
            ((((LRUKReplacer.new 2 2).record_access 1).2.set_evictable 1
              true).2).max_accesses nd) ∧
      ((((LRUKReplacer.new 2 2).record_access 1).2.set_evictable 1
          true).2).remove 1 =
        (Except.ok {}, ((((LRUKReplacer.new 2 2).record_access
          1).2.set_evictable 1 true).2.remove 1).2) ∧
      ((((LRUKReplacer.new 2 2).record_access 1).2.set_evictable 1
          true).2.remove 1).2.state.current_size + 1 =
        ((((LRUKReplacer.new 2 2).record_access 1).2.set_evictable 1
          true).2).state.current_size :=
  evict_victim_spec (by decide)
    (Reachable.step (Reachable.step Reachable.init
      (ReplacerStep.record_access _ 1)) (ReplacerStep.set_evictable _ 1 true))
    (by decide)

/-- C7: `evict` never returns an error.  With no evictable tracked frame it
returns success with no victim and leaves the whole state (including `size()`)
unchanged; with at least one evictable frame it returns success with some victim
frame identifier.  The clock bound is the range of the source's `u64` timestamp
type. -/
theorem evict_total_spec {C k : Nat} {r : LRUKReplacer}
    (hk : 1 ≤ k) (hreach : Reachable C k r)
    (hclock : r.state.current_timestamp ≤ u64MAX) :
    (∃ p, r.evict = some p ∧ p.1.isOk = true) ∧
    ((∀ q ∈ r.state.node_store, q.2.is_evictable = false) →
      r.evict = some (Except.ok (EvictionResponse.new none), r)) ∧
    ((∃ q ∈ r.state.node_store, q.2.is_evictable = true) →
      ∃ f r2, r.evict = some (Except.ok (EvictionResponse.new (some f)), r2)) := by
  have hwf := reachable_wf hk hreach
  rcases scan_spec r.state.current_timestamp r.max_accesses r.state.node_store
      (fun q hq _ => hwf.hist_ne q hq) (none, 0) with ⟨b, d, hfold, hle, hmax, hdisj⟩
  refine ⟨?_, ?_, ?_⟩
  · cases b with
    | none =>
        refine ⟨(Except.ok (EvictionResponse.new none), r), ?_, rfl⟩
        unfold LRUKReplacer.evict
        rw [hfold]
    | some frame =>
        rcases hdisj with ⟨hb, hd⟩ | ⟨q, hq, hbq, hqev, hdq⟩
        · cases hb
        · have hfq : frame = q.1 := by
            simpa using hbq
          subst hfq
          have hmem : (q.1, q.2) ∈ r.state.node_store := by
            simpa using hq
          have hlq : storeLookup r.state.node_store q.1 = some q.2 :=
            mem_storeLookup hwf.keys_nodup hmem
          have hr := remove_ok hlq hqev
          refine ⟨(Except.ok (EvictionResponse.new (some q.1)),
            (r.remove q.1).2), ?_, rfl⟩
          unfold LRUKReplacer.evict
          rw [hfold]
          simp only [hr]
  · intro hall
    rcases hdisj with ⟨hb, hd⟩ | ⟨q, hq, hbq, hqev, hdq⟩
    · subst hb
      subst hd
      unfold LRUKReplacer.evict
      rw [hfold]
    · rw [hall q hq] at hqev
      cases hqev
  · intro hex
    rcases hex with ⟨q0, hq0, hev0⟩
    have hpos : 1 ≤ backwardKDistance r.state.current_timestamp r.max_accesses
        q0.2 := backwardKDistance_pos hwf hclock hq0
    have hd1 : 1 ≤ d := le_trans hpos (hmax q0 hq0 hev0)
    rcases hdisj with ⟨hb, hd⟩ | ⟨q, hq, hbq, hqev, hdq⟩
    · rw [hd] at hd1
      simp at hd1
    · have hfq : ∃ frame, b = some frame := by
        exact ⟨q.1, hbq⟩
      rcases hfq with ⟨frame, hbf⟩
      rw [hbf] at hbq
      have hfq2 : frame = q.1 := by
        simpa using hbq
      subst hfq2
      have hmem : (q.1, q.2) ∈ r.state.node_store := by
        simpa using hq
      have hlq : storeLookup r.state.node_store q.1 = some q.2 :=
        mem_storeLookup hwf.keys_nodup hmem
      have hr := remove_ok hlq hqev
      refine ⟨q.1, (r.remove q.1).2, ?_⟩
      unfold LRUKReplacer.evict
      rw [hfold, hbf]
      simp only [hr]

/-- Witness for C7 on a reachable state with one evictable frame: `evict`
succeeds, and the evictable-frame branch yields a victim. -/
theorem evict_total_spec_witness :
    (∃ p, ((((LRUKReplacer.new 2 2).record_access 1).2.set_evictable 1
        true).2).evict = some p ∧ p.1.isOk = true) ∧
    ((∀ q ∈ ((((LRUKReplacer.new 2 2).record_access 1).2.set_evictable 1
        true).2).state.node_store, q.2.is_evictable = false) →
      ((((LRUKReplacer.new 2 2).record_access 1).2.set_evictable 1
        true).2).evict = some (Except.ok (EvictionResponse.new none),
          (((LRUKReplacer.new 2 2).record_access 1).2.set_evictable 1 true).2)) ∧
    ((∃ q ∈ ((((LRUKReplacer.new 2 2).record_access 1).2.set_evictable 1
        true).2).state.node_store, q.2.is_evictable = true) →
      ∃ f r2, ((((LRUKReplacer.new 2 2).record_access 1).2.set_evictable 1
        true).2).evict = some (Except.ok (EvictionResponse.new (some f)), r2)) :=
  evict_total_spec (by decide)
    (Reachable.step (Reachable.step Reachable.init
      (ReplacerStep.record_access _ 1)) (ReplacerStep.set_evictable _ 1 true))
    (by decide)
